import Mathlib

set_option linter.unusedVariables false

/-
Verification of the Merkle-tree core of the repository
(src/lab_2/merkle_tree.py).

Modelling choices:
* Python hash values are hexadecimal digest strings; data blocks are
  strings.  Both are modelled as `String`.
* The function `hashlib.sha256(s.encode("utf-8")).hexdigest()` (the body of
  `MerkleNode.calculate_hash` and the hashing in `verify_proof`) is modelled
  as an abstract parameter `H : String → String`; every operation is
  parameterised by it.  Python string concatenation `+` is `++`.
* `raise ValueError` / `raise IndexError` are modelled with `Except`.
-/

/-- A node of the Merkle tree (class `MerkleNode`): a leaf stores its data
block and its stored hash; an internal node stores its two children and its
stored hash.  The stored hash is an arbitrary string at the type level; the
constructor functions below compute it exactly as `MerkleNode.__init__`
does. -/
inductive MerkleNode where
  | leaf (data : String) (hash : String)
  | inner (left : MerkleNode) (right : MerkleNode) (hash : String)
deriving Repr, DecidableEq

/-- The stored `hash` attribute of a node. -/
def MerkleNode.hash : MerkleNode → String
  | .leaf _ h => h
  | .inner _ _ h => h

/-- `MerkleNode(data=block, is_leaf=True)`: the stored hash is `H(data)`. -/
def mkLeaf (H : String → String) (data : String) : MerkleNode :=
  .leaf data (H data)

/-- `MerkleNode(left=left, right=right, is_leaf=False)`: the stored hash is
`H(left.hash + right.hash)`, string concatenation in that fixed order. -/
def mkNode (H : String → String) (left right : MerkleNode) : MerkleNode :=
  .inner left right (H (left.hash ++ right.hash))

/-- One iteration of the `while` loop body of `build_tree`: process the
current level in pairs `(i, i+1)` left to right; a lone trailing node is
paired with itself (`right = current_level[i]`). -/
def pairUp (H : String → String) : List MerkleNode → List MerkleNode
  | [] => []
  | [a] => [mkNode H a a]
  | a :: b :: rest => mkNode H a b :: pairUp H rest

theorem pairUp_length (H : String → String) :
    ∀ l : List MerkleNode, (pairUp H l).length = (l.length + 1) / 2
  | [] => by simp [pairUp]
  | [_] => by simp [pairUp]
  | _ :: _ :: rest => by
    simp only [pairUp, List.length_cons, pairUp_length H rest]
    omega

/-- The `while` loop of `build_tree`: pair levels up until at most one node
remains, then return `current_level[0]` (`head?`; the list is never empty on
the reachable path, since construction rejects empty input). -/
def buildRoot (H : String → String) (level : List MerkleNode) : Option MerkleNode :=
  if h : level.length ≤ 1 then level.head?
  else buildRoot H (pairUp H level)
termination_by level.length
decreasing_by
  rw [pairUp_length]
  omega

/-- The `for i in range(0, len(current_level), 2)` loop of `get_proof`,
carrying the absolute pair position `i`, the tracked `current_index`, and
producing the appended proof entries, the updated `current_index`, and the
`next_level` list.  Mirrors the source exactly: when the tracked index is the
left member, `(right.hash, False)` is appended; when it is the right member,
`(left.hash, True)` is appended; `current_index` becomes `i // 2`; a parent
node is always appended to `next_level`. -/
def levelWalk (H : String → String) :
    List MerkleNode → Nat → Nat → List (String × Bool) × Nat × List MerkleNode
  | [], _, idx => ([], idx, [])
  | [a], i, idx =>
      if idx = i then ([(a.hash, false)], i / 2, [mkNode H a a])
      else if idx = i + 1 then ([(a.hash, true)], i / 2, [mkNode H a a])
      else ([], idx, [mkNode H a a])
  | a :: b :: rest, i, idx =>
      if idx = i then
        let w := levelWalk H rest (i + 2) (i / 2)
        ((b.hash, false) :: w.1, w.2.1, mkNode H a b :: w.2.2)
      else if idx = i + 1 then
        let w := levelWalk H rest (i + 2) (i / 2)
        ((a.hash, true) :: w.1, w.2.1, mkNode H a b :: w.2.2)
      else
        let w := levelWalk H rest (i + 2) idx
        (w.1, w.2.1, mkNode H a b :: w.2.2)

theorem levelWalk_third (H : String → String) :
    ∀ (l : List MerkleNode) (i idx : Nat), (levelWalk H l i idx).2.2 = pairUp H l
  | [], _, _ => rfl
  | [a], i, idx => by
    simp only [levelWalk, pairUp]
    split <;> try split
    all_goals rfl
  | a :: b :: rest, i, idx => by
    simp only [levelWalk, pairUp]
    split <;> try split
    all_goals simp [levelWalk_third H rest]

/-- When the tracked index lies strictly left of the remaining pair
positions, no further proof entry is appended and the index is unchanged. -/
theorem levelWalk_nomatch (H : String → String) :
    ∀ (l : List MerkleNode) (i idx : Nat), idx < i →
      levelWalk H l i idx = ([], idx, pairUp H l)
  | [], _, _, _ => rfl
  | [a], i, idx, h => by
    simp only [levelWalk, pairUp]
    rw [if_neg (by omega), if_neg (by omega)]
  | a :: b :: rest, i, idx, h => by
    simp only [levelWalk, pairUp]
    rw [if_neg (by omega), if_neg (by omega),
      levelWalk_nomatch H rest (i + 2) idx (by omega)]

/-- The body of the `for` loop of `verify_proof`: combine the current hash
with one proof step, putting the sibling hash on the side its flag names. -/
def stepHash (H : String → String) (current_hash : String) (sp : String × Bool) : String :=
  if sp.2 then H (sp.1 ++ current_hash) else H (current_hash ++ sp.1)

/-- Full characterisation of one level of the proof walk: if the tracked
index lies inside the remaining pair positions (at an even base offset),
exactly one proof entry is produced, the index becomes `idx / 2`, the next
level is the paired level, and chaining the entry onto the tracked node hash
gives the hash of its parent in the paired level. -/
theorem levelWalk_main (H : String → String) :
    ∀ (l : List MerkleNode) (i idx : Nat), i % 2 = 0 → i ≤ idx → idx < i + l.length →
      ∃ e : String × Bool,
        levelWalk H l i idx = ([e], idx / 2, pairUp H l) ∧
        ∃ (hl : idx - i < l.length) (hp : idx / 2 - i / 2 < (pairUp H l).length),
          stepHash H ((l.get ⟨idx - i, hl⟩).hash) e
            = ((pairUp H l).get ⟨idx / 2 - i / 2, hp⟩).hash
  | [], i, idx => by
    intro h2 h3 h4
    simp only [List.length_nil] at h4
    omega
  | [a], i, idx => by
    intro h2 h3 h4
    simp only [List.length_cons, List.length_nil] at h4
    have hidx : idx = i := by omega
    refine ⟨(a.hash, false), ?_, ?_⟩
    · simp [levelWalk, hidx, pairUp]
    · refine ⟨by simp only [List.length_cons, List.length_nil]; omega,
        by simp only [pairUp_length, List.length_cons, List.length_nil]; omega, ?_⟩
      simp [hidx, Nat.sub_self, stepHash, pairUp, mkNode, MerkleNode.hash]
  | a :: b :: rest, i, idx => by
    intro h2 h3 h4
    simp only [List.length_cons] at h4
    rcases Nat.lt_or_ge idx (i + 2) with hlt | hge
    · have hnm := levelWalk_nomatch H rest (i + 2) (i / 2) (by omega)
      rcases (show idx = i ∨ idx = i + 1 by omega) with hidx | hidx
      · refine ⟨(b.hash, false), ?_, ?_⟩
        · simp [levelWalk, hidx, hnm, pairUp]
        · refine ⟨by simp only [List.length_cons]; omega,
            by simp only [pairUp_length, List.length_cons]; omega, ?_⟩
          simp [hidx, Nat.sub_self, stepHash, pairUp, mkNode, MerkleNode.hash]
      · have h12 : (i + 1) / 2 = i / 2 := by omega
        refine ⟨(a.hash, true), ?_, ?_⟩
        · simp [levelWalk, hidx, hnm, h12, pairUp, Nat.succ_ne_self]
        · refine ⟨by simp only [List.length_cons]; omega,
            by simp only [pairUp_length, List.length_cons]; omega, ?_⟩
          have e1 : idx - i = 1 := by omega
          have e2 : idx / 2 - i / 2 = 0 := by omega
          simp [e1, e2, stepHash, pairUp, mkNode, MerkleNode.hash]
    · obtain ⟨e, heq, hl, hp, hstep⟩ :=
        levelWalk_main H rest (i + 2) idx (by omega) hge (by omega)
      refine ⟨e, ?_, ?_⟩
      · have hne1 : ¬ idx = i := by omega
        have hne2 : ¬ idx = i + 1 := by omega
        simp [levelWalk, hne1, hne2, heq, pairUp]
      · refine ⟨by simp only [List.length_cons]; omega, ?_, ?_⟩
        · simp only [pairUp_length, List.length_cons] at hp ⊢
          omega
        · have ea : idx - i = (idx - (i + 2)) + 1 + 1 := by omega
          have eb : idx / 2 - i / 2 = (idx / 2 - (i + 2) / 2) + 1 := by omega
          simp only [ea, eb, pairUp, List.get_cons_succ]
          exact hstep

/-- The `while` loop of `get_proof`: walk levels upward, collecting the
proof entries produced at each level, until one node remains. -/
def treeWalk (H : String → String) (level : List MerkleNode) (idx : Nat) :
    List (String × Bool) :=
  if h : level.length ≤ 1 then []
  else
    let w := levelWalk H level 0 idx
    w.1 ++ treeWalk H w.2.2 w.2.1
termination_by level.length
decreasing_by
  rw [levelWalk_third, pairUp_length]
  omega

/-- Hash-chaining invariant of the Merkle walk: starting from the stored
hash of the node at a valid tracked index and folding the proof entries
produced by the walk with the verification step function reconstructs the
root hash computed by `build_tree`. -/
theorem treeWalk_chain (H : String → String) (level : List MerkleNode) (idx : Nat)
    (h : idx < level.length) :
    ∃ r, buildRoot H level = some r ∧
      List.foldl (stepHash H) ((level.get ⟨idx, h⟩).hash) (treeWalk H level idx) = r.hash := by
  by_cases h1 : level.length ≤ 1
  · have hlen : level.length = 1 := by omega
    obtain ⟨a, rfl⟩ := List.length_eq_one.1 hlen
    have hidx : idx = 0 := by omega
    subst hidx
    refine ⟨a, ?_, ?_⟩
    · rw [buildRoot]
      simp
    · rw [treeWalk]
      simp
  · have hdec : (pairUp H level).length < level.length := by
      rw [pairUp_length]; omega
    obtain ⟨e, heq, hl, hp, hstep⟩ :=
      levelWalk_main H level 0 idx (by omega) (by omega) (by omega)
    obtain ⟨r, hroot, hchain⟩ :=
      treeWalk_chain H (pairUp H level) (idx / 2) (by simpa using hp)
    refine ⟨r, ?_, ?_⟩
    · rw [buildRoot, dif_neg h1]
      exact hroot
    · rw [treeWalk, dif_neg h1]
      simp only [heq, List.singleton_append, List.foldl_cons]
      have hstart : (level.get ⟨idx - 0, hl⟩) = (level.get ⟨idx, h⟩) := rfl
      rw [hstart] at hstep
      rw [hstep]
      convert hchain using 2
termination_by level.length
decreasing_by exact hdec

/-- Each level of the walk contributes exactly one proof entry, so the
proof produced for a valid index has length `⌈log2 n⌉` (which is `0`, not
`1`, when the level has a single node). -/
theorem treeWalk_length (H : String → String) (level : List MerkleNode) (idx : Nat)
    (h : idx < level.length) :
    (treeWalk H level idx).length = Nat.clog 2 level.length := by
  by_cases h1 : level.length ≤ 1
  · rw [treeWalk, dif_pos h1]
    have hlen : level.length = 1 := by omega
    rw [hlen, Nat.clog_one_right]
    rfl
  · have hdec : (pairUp H level).length < level.length := by
      rw [pairUp_length]; omega
    obtain ⟨e, heq, hl, hp, hstep⟩ :=
      levelWalk_main H level 0 idx (by omega) (by omega) (by omega)
    have ih := treeWalk_length H (pairUp H level) (idx / 2) (by simpa using hp)
    rw [treeWalk, dif_neg h1]
    simp only [heq, List.singleton_append, List.length_cons, ih, pairUp_length]
    have hclog := Nat.clog_of_two_le Nat.one_lt_two (show 2 ≤ level.length by omega)
    rw [hclog]
    norm_num
termination_by level.length
decreasing_by exact hdec

/-- Error conditions of the core: `ValueError` raised on empty input to the
constructor, `IndexError` raised on an out-of-range proof index. -/
inductive MerkleError where
  | invalidInput
  | indexOutOfRange
deriving Repr, DecidableEq

/-- The `MerkleTree` object state: the ordered data blocks, the leaf nodes
(one per block, in order) and the root node (`None` only before
construction, which is unreachable through the public path). -/
structure MerkleTree where
  data_blocks : List String
  leaves : List MerkleNode
  root : Option MerkleNode
deriving Repr, DecidableEq

/-- `MerkleTree.__init__` followed by `build_tree`: reject an empty block
list with `ValueError` before any hashing; otherwise hash every block into
a leaf (in input order) and pair levels up to the single root. -/
def MerkleTree.build (H : String → String) (data_blocks : List String) :
    Except MerkleError MerkleTree :=
  if data_blocks.isEmpty then .error .invalidInput
  else
    let leaves := data_blocks.map (mkLeaf H)
    .ok { data_blocks := data_blocks, leaves := leaves, root := buildRoot H leaves }

/-- `get_root_hash`: the stored hash of the root, if a root exists. -/
def MerkleTree.get_root_hash (t : MerkleTree) : Option String :=
  t.root.map MerkleNode.hash

/-- `get_proof`: raise `IndexError` when the index is outside
`[0, len(self.leaves))`, otherwise re-walk the pairing levels recording the
sibling hash and side at each level. -/
def MerkleTree.get_proof (H : String → String) (t : MerkleTree) (data_index : Int) :
    Except MerkleError (List (String × Bool)) :=
  if data_index < 0 ∨ data_index ≥ (t.leaves.length : Int) then .error .indexOutOfRange
  else .ok (treeWalk H t.leaves data_index.toNat)

/-- The `get_proof` method viewed as a state transformer on the tree
object.  Every statement in the method body either raises, reads
`self.leaves`, or writes a local variable (`proof`, `current_level`,
`current_index`, `next_level`, `left`, `right`, `parent`); no statement
assigns to a field of `self`, so threading the object through the body
returns it unchanged alongside the result. -/
def MerkleTree.get_proof_method (H : String → String) (t : MerkleTree)
    (data_index : Int) : Except MerkleError (List (String × Bool)) × MerkleTree :=
  (t.get_proof H data_index, t)

/-- `verify_proof`: start from `H(data)`, fold the proof steps putting each
sibling hash on the side its flag names, and compare the final hash with the
expected root, byte-exactly.  The method reads neither `self` nor
`data_index`. -/
def MerkleTree.verify_proof (H : String → String) (t : MerkleTree) (data : String)
    (data_index : Int) (proof : List (String × Bool)) (root_hash : String) : Bool :=
  List.foldl (stepHash H) (H data) proof == root_hash

/-- The pure content of `get_statistics`: the number of data blocks, the
reported tree height `⌈log2 n⌉` for `n > 1` and `1` otherwise, and the
reported proof size, equal to the reported height. -/
def MerkleTree.get_statistics (t : MerkleTree) : Nat × Nat × Nat :=
  let num_leaves := t.leaves.length
  let tree_height := if num_leaves > 1 then Nat.clog 2 num_leaves else 1
  (num_leaves, tree_height, tree_height)

/-- The node-hash invariant: a leaf stores `H(data)`; an internal node
stores `H(left.hash ++ right.hash)` in that fixed order, and its children
satisfy the invariant as well. -/
def wellHashed (H : String → String) : MerkleNode → Prop
  | .leaf d h => h = H d
  | .inner l r h => h = H (l.hash ++ r.hash) ∧ wellHashed H l ∧ wellHashed H r

theorem wellHashed_mkLeaf (H : String → String) (d : String) :
    wellHashed H (mkLeaf H d) := by
  simp [wellHashed, mkLeaf]

theorem wellHashed_mkNode (H : String → String) (l r : MerkleNode)
    (hl : wellHashed H l) (hr : wellHashed H r) : wellHashed H (mkNode H l r) := by
  exact ⟨rfl, hl, hr⟩

theorem pairUp_wellHashed (H : String → String) :
    ∀ l : List MerkleNode, (∀ n ∈ l, wellHashed H n) →
      ∀ n ∈ pairUp H l, wellHashed H n
  | [] => by simp [pairUp]
  | [a] => by
    intro hwf n hn
    simp only [pairUp, List.mem_singleton] at hn
    subst hn
    exact wellHashed_mkNode H a a (hwf a (by simp)) (hwf a (by simp))
  | a :: b :: rest => by
    intro hwf n hn
    simp only [pairUp, List.mem_cons] at hn
    rcases hn with hn | hn
    · subst hn
      exact wellHashed_mkNode H a b (hwf a (by simp)) (hwf b (by simp))
    · exact pairUp_wellHashed H rest (fun m hm => hwf m (by simp [hm])) n hn

theorem buildRoot_wellHashed (H : String → String) (level : List MerkleNode)
    (hwf : ∀ n ∈ level, wellHashed H n) :
    ∀ r, buildRoot H level = some r → wellHashed H r := by
  intro r hr
  by_cases h1 : level.length ≤ 1
  · rw [buildRoot, dif_pos h1] at hr
    exact hwf r (List.mem_of_mem_head? hr)
  · have hdec : (pairUp H level).length < level.length := by
      rw [pairUp_length]; omega
    rw [buildRoot, dif_neg h1] at hr
    exact buildRoot_wellHashed H (pairUp H level) (pairUp_wellHashed H level hwf) r hr
termination_by level.length
decreasing_by exact hdec

/-- Modelled from the spec, section 4.4: the verification algorithm in its
own words — set `current = H(data)`; for each proof step
`(sibling_hash, sibling_is_left)` in order, set
`current = H(sibling_hash ++ current)` when the flag is true and
`current = H(current ++ sibling_hash)` otherwise; return the final value.
Used only to compare the implemented `verify_proof` against the spec text. -/
def chainReplay (H : String → String) : String → List (String × Bool) → String
  | current, [] => current
  | current, (sibling_hash, sibling_is_left) :: rest =>
      chainReplay H
        (if sibling_is_left then H (sibling_hash ++ current) else H (current ++ sibling_hash))
        rest

theorem foldl_stepHash_eq_chainReplay (H : String → String) :
    ∀ (proof : List (String × Bool)) (current : String),
      List.foldl (stepHash H) current proof = chainReplay H current proof
  | [], current => rfl
  | (sh, sl) :: rest, current => by
    simp only [List.foldl_cons, chainReplay]
    rw [foldl_stepHash_eq_chainReplay H rest]
    rfl

/-- Characterisation of a successful construction: the input was non-empty
and the resulting object holds the blocks, their leaves in order, and the
root produced by the pairing loop. -/
theorem build_eq_ok (H : String → String) (D : List String) (t : MerkleTree) :
    MerkleTree.build H D = .ok t ↔
      D ≠ [] ∧ t = { data_blocks := D, leaves := D.map (mkLeaf H),
                     root := buildRoot H (D.map (mkLeaf H)) } := by
  cases D with
  | nil => simp [MerkleTree.build]
  | cons d rest =>
    simp only [MerkleTree.build, List.isEmpty_cons, Bool.false_eq_true, if_false]
    constructor
    · intro h
      refine ⟨by simp, ?_⟩
      cases h
      rfl
    · intro ⟨_, h⟩
      rw [h]

/-- A concrete stand-in hash function for the concrete instances below (the
universally quantified results above hold for every `H`). -/
def testHash (s : String) : String := "h[" ++ s ++ "]"

/-- The tree built from the single block list `["a"]`. -/
def tree1 : MerkleTree :=
  { data_blocks := ["a"], leaves := [mkLeaf testHash "a"],
    root := some (mkLeaf testHash "a") }

/-- The tree built from `["a", "b"]`. -/
def tree2 : MerkleTree :=
  { data_blocks := ["a", "b"],
    leaves := [mkLeaf testHash "a", mkLeaf testHash "b"],
    root := some (mkNode testHash (mkLeaf testHash "a") (mkLeaf testHash "b")) }

/-- The tree built from `["a", "b", "c"]` (odd count: the third leaf is
self-paired at the first level). -/
def tree3 : MerkleTree :=
  { data_blocks := ["a", "b", "c"],
    leaves := [mkLeaf testHash "a", mkLeaf testHash "b", mkLeaf testHash "c"],
    root := some (mkNode testHash
      (mkNode testHash (mkLeaf testHash "a") (mkLeaf testHash "b"))
      (mkNode testHash (mkLeaf testHash "c") (mkLeaf testHash "c"))) }

theorem build_tree1 : MerkleTree.build testHash ["a"] = .ok tree1 := by
  simp [MerkleTree.build, buildRoot, tree1]

theorem build_tree2 : MerkleTree.build testHash ["a", "b"] = .ok tree2 := by
  simp [MerkleTree.build, buildRoot, pairUp, tree2]

theorem build_tree3 : MerkleTree.build testHash ["a", "b", "c"] = .ok tree3 := by
  simp [MerkleTree.build, buildRoot, pairUp, tree3]

/-- C1: Proof round-trip — for every hash function, every successfully
built tree over blocks `D` and every valid index `i`, verifying the block
`D[i]` with the generated proof against the root hash returns true. -/
theorem merkle_proof_roundtrip (H : String → String) (D : List String) (i : Nat)
    (t : MerkleTree) (hb : MerkleTree.build H D = .ok t) (hi : i < D.length) :
    ∃ p r, t.get_proof H i = .ok p ∧ t.get_root_hash = some r ∧
      t.verify_proof H (D.get ⟨i, hi⟩) i p r = true := by
  obtain ⟨hne, ht⟩ := (build_eq_ok H D t).1 hb
  subst ht
  have hi2 : i < (D.map (mkLeaf H)).length := by simpa using hi
  obtain ⟨r, hroot, hchain⟩ := treeWalk_chain H (D.map (mkLeaf H)) i hi2
  refine ⟨treeWalk H (D.map (mkLeaf H)) i, r.hash, ?_, ?_, ?_⟩
  · simp only [MerkleTree.get_proof]
    rw [if_neg (by omega)]
    simp
  · simp [MerkleTree.get_root_hash, hroot]
  · simp only [MerkleTree.verify_proof, beq_iff_eq]
    have hleaf : (D.map (mkLeaf H)).get ⟨i, hi2⟩ = mkLeaf H (D.get ⟨i, hi⟩) := by
      simp
    rw [hleaf] at hchain
    simpa [mkLeaf, MerkleNode.hash] using hchain

/-- C1 witness: the round-trip at the concrete tree over `["a","b","c"]`
and index 2. -/
theorem merkle_proof_roundtrip_witness :
    ∃ p r, tree3.get_proof testHash 2 = .ok p ∧ tree3.get_root_hash = some r ∧
      tree3.verify_proof testHash "c" 2 p r = true :=
  merkle_proof_roundtrip testHash ["a", "b", "c"] 2 tree3 build_tree3 (by decide)

/-- C2: Node hash invariant — in every successfully built tree, every leaf
stores `H(data)` and every internal node reachable from the root stores
`H(left.hash ++ right.hash)` in that fixed order. -/
theorem merkle_node_hash_invariant (H : String → String) (D : List String)
    (t : MerkleTree) (hb : MerkleTree.build H D = .ok t) :
    (∀ n ∈ t.leaves, wellHashed H n) ∧ (∀ r, t.root = some r → wellHashed H r) := by
  obtain ⟨hne, ht⟩ := (build_eq_ok H D t).1 hb
  subst ht
  have hleaves : ∀ n ∈ D.map (mkLeaf H), wellHashed H n := by
    intro n hn
    simp only [List.mem_map] at hn
    obtain ⟨d, _, rfl⟩ := hn
    exact wellHashed_mkLeaf H d
  exact ⟨hleaves, buildRoot_wellHashed H _ hleaves⟩

/-- C2 witness: the invariant at the root of the concrete two-block tree. -/
theorem merkle_node_hash_invariant_witness :
    wellHashed testHash (mkNode testHash (mkLeaf testHash "a") (mkLeaf testHash "b")) :=
  (merkle_node_hash_invariant testHash ["a", "b"] tree2 build_tree2).2
    (mkNode testHash (mkLeaf testHash "a") (mkLeaf testHash "b")) rfl

/-- C3: Verification algorithm — `verify_proof` returns true exactly when
replaying the hash chain of the spec (start from `H(data)`, fold each
`(sibling_hash, sibling_is_left)` step in order, sibling on the named side)
ends in a value equal to the expected root. -/
theorem merkle_verify_algorithm (H : String → String) (t : MerkleTree) (data : String)
    (data_index : Int) (proof : List (String × Bool)) (root_hash : String) :
    t.verify_proof H data data_index proof root_hash = true ↔
      chainReplay H (H data) proof = root_hash := by
  simp only [MerkleTree.verify_proof, beq_iff_eq, foldl_stepHash_eq_chainReplay]

/-- The last node of a level with odd node count is paired with itself:
the last parent is an internal node with both children equal to the last
node and hash `H(node.hash ++ node.hash)`. -/
theorem pairUp_odd_last (H : String → String) :
    ∀ (l : List MerkleNode) (a : MerkleNode), l.getLast? = some a → l.length % 2 = 1 →
      (pairUp H l).getLast? = some (MerkleNode.inner a a (H (a.hash ++ a.hash)))
  | [], a => by simp
  | [x], a => by
    intro hlast hodd
    simp only [List.getLast?_singleton, Option.some.injEq] at hlast
    subst hlast
    simp [pairUp, mkNode]
  | x :: y :: rest, a => by
    intro hlast hodd
    cases hr : rest with
    | nil =>
      subst hr
      simp at hodd
    | cons z rest2 =>
      subst hr
      have hlast2 : (z :: rest2).getLast? = some a := by
        rw [List.getLast?_cons_cons, List.getLast?_cons_cons] at hlast
        exact hlast
      have hodd2 : (z :: rest2).length % 2 = 1 := by
        simp only [List.length_cons] at hodd ⊢
        omega
      have ih := pairUp_odd_last H (z :: rest2) a hlast2 hodd2
      have hne : pairUp H (z :: rest2) ≠ [] := by
        intro hcontra
        have hlen := pairUp_length H (z :: rest2)
        rw [hcontra] at hlen
        simp only [List.length_nil, List.length_cons] at hlen
        omega
      obtain ⟨w, ws, hws⟩ := List.exists_cons_of_ne_nil hne
      simp only [pairUp]
      rw [hws] at ih ⊢
      rwa [List.getLast?_cons_cons]

/-- C4: Odd-node self-pairing — during construction the final unpaired node
of an odd level becomes the parent `inner a a` with hash
`H(a.hash ++ a.hash)`; and for a 3-leaf tree, the proof for index 2 starts
with that leaf's own hash (flagged as a right sibling), followed by the
hash of the pair of the first two leaves (flagged left). -/
theorem merkle_odd_self_pairing :
    (∀ (H : String → String) (l : List MerkleNode) (a : MerkleNode),
        l.getLast? = some a → l.length % 2 = 1 →
        (pairUp H l).getLast? = some (MerkleNode.inner a a (H (a.hash ++ a.hash)))) ∧
    (∀ (H : String → String) (d0 d1 d2 : String) (t : MerkleTree),
        MerkleTree.build H [d0, d1, d2] = .ok t →
        t.get_proof H 2 = .ok [(H d2, false), (H (H d0 ++ H d1), true)]) := by
  constructor
  · exact pairUp_odd_last
  · intro H d0 d1 d2 t hb
    obtain ⟨hne, ht⟩ := (build_eq_ok H [d0, d1, d2] t).1 hb
    subst ht
    simp only [MerkleTree.get_proof]
    rw [if_neg (by simp)]
    simp [treeWalk, levelWalk, mkLeaf, mkNode, MerkleNode.hash]

/-- C4 witness: the self-paired last parent over a concrete one-node level,
and the concrete proof for index 2 of the three-block tree. -/
theorem merkle_odd_self_pairing_witness :
    (pairUp testHash [MerkleNode.leaf "x" (testHash "x")]).getLast?
        = some (MerkleNode.inner (MerkleNode.leaf "x" (testHash "x"))
            (MerkleNode.leaf "x" (testHash "x"))
            (testHash (testHash "x" ++ testHash "x"))) ∧
    tree3.get_proof testHash 2
        = .ok [(testHash "c", false), (testHash (testHash "a" ++ testHash "b"), true)] :=
  ⟨merkle_odd_self_pairing.1 testHash [MerkleNode.leaf "x" (testHash "x")]
      (MerkleNode.leaf "x" (testHash "x")) (by simp) (by simp),
   merkle_odd_self_pairing.2 testHash "a" "b" "c" tree3 build_tree3⟩

/-- C5 counterexample: the claim says `get_proof` returns a proof of length
`max(1, ⌈log2(n)⌉)`; on the single-block tree the code returns the empty
proof, of length 0, while the claimed formula gives 1. -/
theorem merkle_proof_length_counterexample :
    ∃ t, MerkleTree.build testHash ["a"] = .ok t ∧
      ∃ p, t.get_proof testHash 0 = .ok p ∧
        p.length ≠ max 1 (Nat.clog 2 (["a"] : List String).length) := by
  refine ⟨tree1, build_tree1, [], ?_, ?_⟩
  · simp [MerkleTree.get_proof, tree1, treeWalk]
  · simp [Nat.clog_one_right]

/-- C5 amended: for every successfully built tree over `D` and every valid
index, the generated proof has length `⌈log2 |D|⌉` exactly — which is `0`,
not `1`, for a single-block tree — while `get_statistics` reports the
claimed `max(1, ⌈log2 |D|⌉)` as both tree height and proof size. -/
theorem merkle_proof_length_amended (H : String → String) (D : List String) (i : Nat)
    (t : MerkleTree) (hb : MerkleTree.build H D = .ok t) (hi : i < D.length) :
    ∃ p, t.get_proof H i = .ok p ∧ p.length = Nat.clog 2 D.length ∧
      t.get_statistics
        = (D.length, max 1 (Nat.clog 2 D.length), max 1 (Nat.clog 2 D.length)) := by
  obtain ⟨hne, ht⟩ := (build_eq_ok H D t).1 hb
  subst ht
  have hi2 : i < (D.map (mkLeaf H)).length := by simpa using hi
  refine ⟨treeWalk H (D.map (mkLeaf H)) i, ?_, ?_, ?_⟩
  · simp only [MerkleTree.get_proof]
    rw [if_neg (by omega)]
    simp
  · rw [treeWalk_length H (D.map (mkLeaf H)) i hi2]
    simp
  · have hD : 1 ≤ D.length := by
      cases D with
      | nil => exact absurd rfl hne
      | cons d rest => simp
    simp only [MerkleTree.get_statistics, List.length_map]
    rcases Nat.lt_or_ge D.length 2 with hsm | hlg
    · have h1 : D.length = 1 := by omega
      rw [h1]
      simp [Nat.clog_one_right]
    · have hpos := Nat.clog_pos Nat.one_lt_two hlg
      rw [if_pos (by omega)]
      have hmax : max 1 (Nat.clog 2 D.length) = Nat.clog 2 D.length := by omega
      rw [hmax]

/-- C5 amended witness: the two-block tree at index 0 has a one-entry proof
and statistics reporting height 1. -/
theorem merkle_proof_length_amended_witness :
    ∃ p, tree2.get_proof testHash 0 = .ok p ∧ p.length = Nat.clog 2 (2 : Nat) ∧
      tree2.get_statistics = (2, max 1 (Nat.clog 2 2), max 1 (Nat.clog 2 2)) :=
  merkle_proof_length_amended testHash ["a", "b"] 0 tree2 build_tree2 (by decide)

/-- C6: Empty-input failure — constructing from the empty block list fails
with the `InvalidInput` condition, independently of the hash function (so
no hashing can have taken place), and no tree is returned. -/
theorem merkle_empty_input_invalid (H : String → String) :
    MerkleTree.build H [] = .error .invalidInput := rfl

/-- C7: Out-of-range index failure — for every tree and every index outside
`[0, leaf_count)`, `get_proof` fails with `IndexOutOfRange`, independently
of the hash function (no hashing is attempted), and no proof is returned. -/
theorem merkle_index_out_of_range (H : String → String) (t : MerkleTree) (i : Int)
    (h : i < 0 ∨ i ≥ (t.leaves.length : Int)) :
    t.get_proof H i = .error .indexOutOfRange := by
  simp only [MerkleTree.get_proof]
  rw [if_pos h]

/-- C7 witness: index -1 on the one-block tree is rejected. -/
theorem merkle_index_out_of_range_witness :
    tree1.get_proof testHash (-1) = .error .indexOutOfRange :=
  merkle_index_out_of_range testHash tree1 (-1) (Or.inl (by decide))

/-- C8: Single-block edge case — building from one block yields a tree
whose root is that one leaf node itself, unmodified (no pairing round), so
the root hash is the hash of that single leaf. -/
theorem merkle_single_block_root (H : String → String) (d : String) :
    ∃ t, MerkleTree.build H [d] = .ok t ∧
      t.root = some (MerkleNode.leaf d (H d)) ∧ t.get_root_hash = some (H d) := by
  refine ⟨{ data_blocks := [d], leaves := [mkLeaf H d],
            root := buildRoot H [mkLeaf H d] }, ?_, ?_, ?_⟩
  · simp [MerkleTree.build]
  · rw [buildRoot]
    simp [mkLeaf]
  · simp only [MerkleTree.get_root_hash]
    rw [buildRoot]
    simp [mkLeaf, MerkleNode.hash]

/-- C9: Index noninterference — `verify_proof` returns the same result for
any two claimed indices and even for any two tree objects: the result
depends only on the data, the proof and the expected root. -/
theorem merkle_verify_index_noninterference (H : String → String)
    (t u : MerkleTree) (data : String) (i j : Int)
    (proof : List (String × Bool)) (root_hash : String) :
    t.verify_proof H data i proof root_hash = u.verify_proof H data j proof root_hash := rfl

/-- C10: Frame effect of `get_proof` — the method, viewed as a state
transformer, returns exactly the `get_proof` result (proof or error) and
leaves the `data_blocks`, `leaves` and `root` fields of the tree exactly as
they were. -/
theorem merkle_get_proof_frame (H : String → String) (t : MerkleTree) (i : Int) :
    (t.get_proof_method H i).1 = t.get_proof H i ∧
    (t.get_proof_method H i).2.data_blocks = t.data_blocks ∧
    (t.get_proof_method H i).2.leaves = t.leaves ∧
    (t.get_proof_method H i).2.root = t.root :=
  ⟨rfl, rfl, rfl, rfl⟩
